import Mathlib

/-!
Verification of the indicator classification and color-mapping pipeline of the
shipyard-competition visualization (src/Home.py, src/pages/1_Interactive_Map.py,
src/pages/2_Split_Map.py).

Numeric cell values are embedded as rationals; a pandas cell may also be
null/None, NaN, or an infinity, so a column entry is a `Val`.  The pipeline in
`build_map` (src/Home.py lines 340-476) cleans the selected column, classifies
it by the method registered for the indicator, and builds a stepped colormap;
`style_fn` (lines 479-488) maps each county value to a fill color.
-/

attribute [local semireducible] Rat.add Rat.mul Rat.inv Rat.sub Rat.ofScientific

/-- A cell of a numeric pandas column: a finite number, a missing value
(`None`), a float NaN, or an infinity. -/
inductive Val where
  | num  (q : ℚ)
  | null
  | nan
  | pinf
  | ninf
deriving DecidableEq, Repr

/-- Whether a cell holds a finite number. -/
def Val.isFinite : Val → Bool
  | .num _ => true
  | _ => false

/-- `vals = cbp[indicator_col].replace([np.inf, -np.inf], np.nan).dropna()`
(src/Home.py line 345): infinities become NaN and every NaN/None is dropped,
leaving the finite numeric entries in order.  The result is a fresh series;
the caller's column is untouched. -/
def cleanVals (values : List Val) : List ℚ :=
  values.filterMap (fun v => match v with | .num q => some q | _ => none)

theorem cleanVals_eq_nil (values : List Val) (h : ∀ v ∈ values, v.isFinite = false) :
    cleanVals values = [] := by
  induction values with
  | nil => rfl
  | cons v t ih =>
    have hv := h v (List.mem_cons_self v t)
    have ht := ih (fun w hw => h w (List.mem_cons_of_mem v hw))
    cases v with
    | num q => simp [Val.isFinite] at hv
    | null => simpa [cleanVals, List.filterMap_cons] using ht
    | nan => simpa [cleanVals, List.filterMap_cons] using ht
    | pinf => simpa [cleanVals, List.filterMap_cons] using ht
    | ninf => simpa [cleanVals, List.filterMap_cons] using ht

theorem cleanVals_cons_num (q : ℚ) (t : List Val) :
    cleanVals (Val.num q :: t) = q :: cleanVals t := rfl

/-- `series.max()`: the greatest element of a nonempty list (0 on the empty
list, which the pipeline never queries). -/
def listMax : List ℚ → ℚ
  | [] => 0
  | x :: xs => xs.foldl max x

/-- `series.min()`. -/
def listMin : List ℚ → ℚ
  | [] => 0
  | x :: xs => xs.foldl min x

theorem foldl_max_le_self (xs : List ℚ) (a : ℚ) : a ≤ xs.foldl max a := by
  induction xs generalizing a with
  | nil => simp
  | cons x t ih => exact le_trans (le_max_left a x) (ih (max a x))

theorem le_foldl_max (xs : List ℚ) (a : ℚ) {b : ℚ} (hb : b ∈ xs) : b ≤ xs.foldl max a := by
  induction xs generalizing a with
  | nil => cases hb
  | cons x t ih =>
    rcases List.mem_cons.mp hb with rfl | hb2
    · exact le_trans (le_max_right a b) (foldl_max_le_self t (max a b))
    · exact ih (max a x) hb2

theorem foldl_max_mem (xs : List ℚ) (a : ℚ) : xs.foldl max a = a ∨ xs.foldl max a ∈ xs := by
  induction xs generalizing a with
  | nil => exact Or.inl rfl
  | cons x t ih =>
    rcases ih (max a x) with h | h
    · rcases max_choice a x with h2 | h2
      · exact Or.inl (by rw [List.foldl_cons, h, h2])
      · exact Or.inr (by rw [List.foldl_cons, h, h2]; exact List.mem_cons_self x t)
    · exact Or.inr (List.mem_cons_of_mem x h)

theorem foldl_min_le_self (xs : List ℚ) (a : ℚ) : xs.foldl min a ≤ a := by
  induction xs generalizing a with
  | nil => simp
  | cons x t ih => exact le_trans (ih (min a x)) (min_le_left a x)

theorem foldl_min_le (xs : List ℚ) (a : ℚ) {b : ℚ} (hb : b ∈ xs) : xs.foldl min a ≤ b := by
  induction xs generalizing a with
  | nil => cases hb
  | cons x t ih =>
    rcases List.mem_cons.mp hb with rfl | hb2
    · exact le_trans (foldl_min_le_self t (min a b)) (min_le_right a b)
    · exact ih (min a x) hb2

theorem foldl_min_mem (xs : List ℚ) (a : ℚ) : xs.foldl min a = a ∨ xs.foldl min a ∈ xs := by
  induction xs generalizing a with
  | nil => exact Or.inl rfl
  | cons x t ih =>
    rcases ih (min a x) with h | h
    · rcases min_choice a x with h2 | h2
      · exact Or.inl (by rw [List.foldl_cons, h, h2])
      · exact Or.inr (by rw [List.foldl_cons, h, h2]; exact List.mem_cons_self x t)
    · exact Or.inr (List.mem_cons_of_mem x h)

theorem listMax_mem {xs : List ℚ} (h : xs ≠ []) : listMax xs ∈ xs := by
  match xs, h with
  | x :: t, _ =>
    rcases foldl_max_mem t x with h2 | h2
    · rw [listMax, h2]; exact List.mem_cons_self x t
    · exact List.mem_cons_of_mem x (by rw [listMax]; exact h2)

theorem le_listMax {xs : List ℚ} {b : ℚ} (hb : b ∈ xs) : b ≤ listMax xs := by
  match xs, hb with
  | x :: t, hb =>
    rcases List.mem_cons.mp hb with rfl | h2
    · exact foldl_max_le_self t b
    · exact le_foldl_max t x h2

theorem listMin_mem {xs : List ℚ} (h : xs ≠ []) : listMin xs ∈ xs := by
  match xs, h with
  | x :: t, _ =>
    rcases foldl_min_mem t x with h2 | h2
    · rw [listMin, h2]; exact List.mem_cons_self x t
    · exact List.mem_cons_of_mem x (by rw [listMin]; exact h2)

theorem listMin_le {xs : List ℚ} {b : ℚ} (hb : b ∈ xs) : listMin xs ≤ b := by
  match xs, hb with
  | x :: t, hb =>
    rcases List.mem_cons.mp hb with rfl | h2
    · exact foldl_min_le_self t b
    · exact foldl_min_le t x h2

theorem listMax_eq_of {xs : List ℚ} {m : ℚ} (hm : m ∈ xs) (hub : ∀ a ∈ xs, a ≤ m) :
    listMax xs = m := by
  have hne : xs ≠ [] := List.ne_nil_of_mem hm
  exact le_antisymm (hub _ (listMax_mem hne)) (le_listMax hm)

theorem listMin_eq_of {xs : List ℚ} {m : ℚ} (hm : m ∈ xs) (hlb : ∀ a ∈ xs, m ≤ a) :
    listMin xs = m := by
  have hne : xs ≠ [] := List.ne_nil_of_mem hm
  exact le_antisymm (listMin_le hm) (hlb _ (listMin_mem hne))

theorem listMax_congr_perm {xs ys : List ℚ} (h : List.Perm xs ys) :
    listMax xs = listMax ys := by
  rcases eq_or_ne xs [] with rfl | hne
  · rw [h.nil_eq.symm]
  · have hne2 : ys ≠ [] := by
      intro hy
      subst hy
      exact hne h.eq_nil
    exact listMax_eq_of (h.mem_iff.mpr (listMax_mem hne2))
      (fun a ha => le_listMax (h.mem_iff.mp ha))

theorem listMin_congr_perm {xs ys : List ℚ} (h : List.Perm xs ys) :
    listMin xs = listMin ys := by
  rcases eq_or_ne xs [] with rfl | hne
  · rw [h.nil_eq.symm]
  · have hne2 : ys ≠ [] := by
      intro hy
      subst hy
      exact hne h.eq_nil
    exact listMin_eq_of (h.mem_iff.mpr (listMin_mem hne2))
      (fun a ha => listMin_le (h.mem_iff.mp ha))

/-- Ascending sort of a numeric series, as pandas/numpy do internally before
order statistics. -/
def sortQ (xs : List ℚ) : List ℚ := xs.insertionSort (· ≤ ·)

theorem sortQ_sorted (xs : List ℚ) : (sortQ xs).Sorted (· ≤ ·) :=
  List.sorted_insertionSort _ xs

theorem sortQ_perm (xs : List ℚ) : List.Perm (sortQ xs) xs :=
  List.perm_insertionSort _ xs

theorem sortQ_length (xs : List ℚ) : (sortQ xs).length = xs.length :=
  (sortQ_perm xs).length_eq

theorem sortQ_eq_nil_iff (xs : List ℚ) : sortQ xs = [] ↔ xs = [] := by
  constructor
  · intro h; exact List.length_eq_zero.mp (by rw [← sortQ_length xs, h]; rfl)
  · intro h; subst h; rfl

/-- `np.unique`: sort ascending, then drop duplicates. -/
def uniqueSorted (xs : List ℚ) : List ℚ := (sortQ xs).dedup

theorem uniqueSorted_sorted (xs : List ℚ) : (uniqueSorted xs).Sorted (· ≤ ·) :=
  (sortQ_sorted xs).sublist (List.dedup_sublist _)

theorem uniqueSorted_mem {xs : List ℚ} {a : ℚ} : a ∈ uniqueSorted xs ↔ a ∈ xs := by
  rw [uniqueSorted, List.mem_dedup, (sortQ_perm xs).mem_iff]

theorem sorted_getD_mono {xs : List ℚ} (hs : xs.Sorted (· ≤ ·)) {i j : ℕ}
    (hij : i ≤ j) (hj : j < xs.length) : xs.getD i 0 ≤ xs.getD j 0 := by
  have hi : i < xs.length := lt_of_le_of_lt hij hj
  rw [List.getD_eq_getElem xs 0 hi, List.getD_eq_getElem xs 0 hj]
  rcases lt_or_eq_of_le hij with h | h
  · exact List.pairwise_iff_getElem.mp hs i j hi hj h
  · subst h; exact le_refl _

theorem sorted_getD_mem {xs : List ℚ} {i : ℕ} (hi : i < xs.length) :
    xs.getD i 0 ∈ xs := by
  rw [List.getD_eq_getElem xs 0 hi]
  exact List.getElem_mem hi

/-- `series.quantile(q)` on an already sorted nonempty list, with pandas'
default linear interpolation: with `h = q*(n-1)`, `i = floor h` and
`g = h - i`, the result is `xs[i] + g * (xs[i+1] - xs[i])` (upper index
clamped to the last position). -/
def quantileSorted (xs : List ℚ) (q : ℚ) : ℚ :=
  xs.getD (⌊q * ((xs.length : ℚ) - 1)⌋).toNat 0 +
    (q * ((xs.length : ℚ) - 1) - ((⌊q * ((xs.length : ℚ) - 1)⌋ : ℤ) : ℚ)) *
      (xs.getD (min ((⌊q * ((xs.length : ℚ) - 1)⌋).toNat + 1) (xs.length - 1)) 0 -
        xs.getD (⌊q * ((xs.length : ℚ) - 1)⌋).toNat 0)

/-- `series.quantile(q)` (src/Home.py lines 464 and 470). -/
def seriesQuantile (xs : List ℚ) (q : ℚ) : ℚ := quantileSorted (sortQ xs) q

theorem quantile_idx_lt {xs : List ℚ} (hne : xs ≠ []) {q : ℚ} (h0 : 0 ≤ q) (h1 : q ≤ 1) :
    (⌊q * ((xs.length : ℚ) - 1)⌋).toNat < xs.length := by
  have hn : 1 ≤ xs.length := List.length_pos.mpr hne
  have hn1 : (1 : ℚ) ≤ (xs.length : ℚ) := by exact_mod_cast hn
  have hle : q * ((xs.length : ℚ) - 1) ≤ ((xs.length : ℚ) - 1) := by nlinarith
  have h2 : ⌊((xs.length : ℚ) - 1)⌋ = (xs.length : ℤ) - 1 := by
    rw [show ((xs.length : ℚ) - 1) = ((xs.length : ℚ) - ((1 : ℤ) : ℚ)) by norm_num,
      Int.floor_sub_int, Int.floor_natCast]
  have hfl : ⌊q * ((xs.length : ℚ) - 1)⌋ ≤ (xs.length : ℤ) - 1 := by
    rw [← h2]; exact Int.floor_le_floor hle
  omega

theorem quantile_floor_nonneg {xs : List ℚ} (hne : xs ≠ []) {q : ℚ} (h0 : 0 ≤ q) :
    0 ≤ ⌊q * ((xs.length : ℚ) - 1)⌋ := by
  have hn : 1 ≤ xs.length := List.length_pos.mpr hne
  have hn1 : (1 : ℚ) ≤ (xs.length : ℚ) := by exact_mod_cast hn
  exact Int.floor_nonneg.mpr (by nlinarith)

theorem quantileSorted_between {xs : List ℚ} (hs : xs.Sorted (· ≤ ·)) (hne : xs ≠ [])
    {q : ℚ} (h0 : 0 ≤ q) (h1 : q ≤ 1) :
    xs.getD (⌊q * ((xs.length : ℚ) - 1)⌋).toNat 0 ≤ quantileSorted xs q ∧
      quantileSorted xs q ≤
        xs.getD (min ((⌊q * ((xs.length : ℚ) - 1)⌋).toNat + 1) (xs.length - 1)) 0 := by
  have hidx := quantile_idx_lt hne h0 h1
  have hmin_lt : min ((⌊q * ((xs.length : ℚ) - 1)⌋).toNat + 1) (xs.length - 1) < xs.length := by
    omega
  have hlohi : xs.getD (⌊q * ((xs.length : ℚ) - 1)⌋).toNat 0 ≤
      xs.getD (min ((⌊q * ((xs.length : ℚ) - 1)⌋).toNat + 1) (xs.length - 1)) 0 := by
    apply sorted_getD_mono hs _ hmin_lt
    omega
  have hg0 : 0 ≤ q * ((xs.length : ℚ) - 1) - ((⌊q * ((xs.length : ℚ) - 1)⌋ : ℤ) : ℚ) := by
    have := Int.floor_le (q * ((xs.length : ℚ) - 1))
    linarith
  have hg1 : q * ((xs.length : ℚ) - 1) - ((⌊q * ((xs.length : ℚ) - 1)⌋ : ℤ) : ℚ) ≤ 1 := by
    have := Int.lt_floor_add_one (q * ((xs.length : ℚ) - 1))
    push_cast at this ⊢
    linarith
  constructor
  · unfold quantileSorted
    nlinarith
  · unfold quantileSorted
    nlinarith

theorem quantileSorted_mono {xs : List ℚ} (hs : xs.Sorted (· ≤ ·)) (hne : xs ≠ [])
    {q1 q2 : ℚ} (h0 : 0 ≤ q1) (h12 : q1 ≤ q2) (h1 : q2 ≤ 1) :
    quantileSorted xs q1 ≤ quantileSorted xs q2 := by
  have hq1u : q1 ≤ 1 := le_trans h12 h1
  have hq20 : 0 ≤ q2 := le_trans h0 h12
  have hn : 1 ≤ xs.length := List.length_pos.mpr hne
  have hn1 : (1 : ℚ) ≤ (xs.length : ℚ) := by exact_mod_cast hn
  have hh12 : q1 * ((xs.length : ℚ) - 1) ≤ q2 * ((xs.length : ℚ) - 1) := by nlinarith
  have hfl12 : ⌊q1 * ((xs.length : ℚ) - 1)⌋ ≤ ⌊q2 * ((xs.length : ℚ) - 1)⌋ :=
    Int.floor_le_floor hh12
  have hidx1 := quantile_idx_lt hne h0 hq1u
  have hidx2 := quantile_idx_lt hne hq20 h1
  rcases eq_or_lt_of_le (Int.toNat_le_toNat hfl12) with heq | hlt
  · -- same interval: the difference is (h2 - h1) * (hi - lo) ≥ 0
    have hfl_eq : ⌊q1 * ((xs.length : ℚ) - 1)⌋ = ⌊q2 * ((xs.length : ℚ) - 1)⌋ := by
      have n1 := quantile_floor_nonneg hne h0 (q := q1)
      have n2 := quantile_floor_nonneg hne hq20 (q := q2)
      omega
    have hlohi : xs.getD (⌊q1 * ((xs.length : ℚ) - 1)⌋).toNat 0 ≤
        xs.getD (min ((⌊q1 * ((xs.length : ℚ) - 1)⌋).toNat + 1) (xs.length - 1)) 0 := by
      apply sorted_getD_mono hs _ (by omega)
      omega
    unfold quantileSorted
    rw [← hfl_eq]
    nlinarith [mul_nonneg (sub_nonneg.mpr hh12) (sub_nonneg.mpr hlohi)]
  · -- the first value is below the end of its cell, which is below the start
    -- of the second cell
    have h1up := (quantileSorted_between hs hne h0 hq1u).2
    have h2lo := (quantileSorted_between hs hne hq20 h1).1
    refine le_trans h1up (le_trans ?_ h2lo)
    apply sorted_getD_mono hs _ hidx2
    omega

theorem quantileSorted_const {xs : List ℚ} {c : ℚ} (hne : xs ≠ [])
    (hc : ∀ a ∈ xs, a = c) {q : ℚ} (h0 : 0 ≤ q) (h1 : q ≤ 1) :
    quantileSorted xs q = c := by
  have hidx := quantile_idx_lt hne h0 h1
  have hlo : xs.getD (⌊q * ((xs.length : ℚ) - 1)⌋).toNat 0 = c :=
    hc _ (sorted_getD_mem hidx)
  have hhi : xs.getD (min ((⌊q * ((xs.length : ℚ) - 1)⌋).toNat + 1) (xs.length - 1)) 0 = c :=
    hc _ (sorted_getD_mem (by omega))
  unfold quantileSorted
  rw [hlo, hhi]
  ring

theorem seriesQuantile_const {xs : List ℚ} {c : ℚ} (hne : xs ≠ [])
    (hc : ∀ a ∈ xs, a = c) {q : ℚ} (h0 : 0 ≤ q) (h1 : q ≤ 1) :
    seriesQuantile xs q = c := by
  have hne2 : sortQ xs ≠ [] := fun h => hne ((sortQ_eq_nil_iff xs).mp h)
  exact quantileSorted_const hne2 (fun a ha => hc a ((sortQ_perm xs).mem_iff.mp ha)) h0 h1

theorem seriesQuantile_mono {xs : List ℚ} (hne : xs ≠ []) {q1 q2 : ℚ}
    (h0 : 0 ≤ q1) (h12 : q1 ≤ q2) (h1 : q2 ≤ 1) :
    seriesQuantile xs q1 ≤ seriesQuantile xs q2 := by
  have hne2 : sortQ xs ≠ [] := fun h => hne ((sortQ_eq_nil_iff xs).mp h)
  exact quantileSorted_mono (sortQ_sorted xs) hne2 h0 h12 h1

theorem seriesQuantile_mem_bounds {xs : List ℚ} (hne : xs ≠ []) {q : ℚ}
    (h0 : 0 ≤ q) (h1 : q ≤ 1) :
    listMin xs ≤ seriesQuantile xs q ∧ seriesQuantile xs q ≤ listMax xs := by
  have hne2 : sortQ xs ≠ [] := fun h => hne ((sortQ_eq_nil_iff xs).mp h)
  have hb := quantileSorted_between (sortQ_sorted xs) hne2 h0 h1
  have hlo_mem : (sortQ xs).getD (⌊q * (((sortQ xs).length : ℚ) - 1)⌋).toNat 0 ∈ xs :=
    (sortQ_perm xs).mem_iff.mp (sorted_getD_mem (quantile_idx_lt hne2 h0 h1))
  have hhi_mem : (sortQ xs).getD
      (min ((⌊q * (((sortQ xs).length : ℚ) - 1)⌋).toNat + 1) ((sortQ xs).length - 1)) 0 ∈ xs := by
    refine (sortQ_perm xs).mem_iff.mp (sorted_getD_mem ?_)
    have := quantile_idx_lt hne2 h0 h1
    omega
  exact ⟨le_trans (listMin_le hlo_mem) hb.1, le_trans hb.2 (le_listMax hhi_mem)⟩

/-- `np.linspace(a, b, num)`: `num` evenly spaced points from `a` to `b`
inclusive (src/Home.py lines 432 and 452). -/
def linspace (a b : ℚ) (num : ℕ) : List ℚ :=
  (List.range num).map (fun i : ℕ => a + (b - a) * (i : ℚ) / ((num : ℚ) - 1))

theorem linspace_length (a b : ℚ) (num : ℕ) : (linspace a b num).length = num := by
  rw [linspace, List.length_map, List.length_range]

theorem linspace_getD (a b : ℚ) {num i : ℕ} (hi : i < num) :
    (linspace a b num).getD i 0 = a + (b - a) * (i : ℚ) / ((num : ℚ) - 1) := by
  have hlen : i < (linspace a b num).length := by rw [linspace_length]; exact hi
  rw [List.getD_eq_getElem _ _ hlen]
  simp only [linspace, List.getElem_map, List.getElem_range]

theorem linspace_sorted {a b : ℚ} (hab : a ≤ b) (num : ℕ) :
    (linspace a b num).Sorted (· ≤ ·) := by
  apply List.pairwise_iff_getElem.mpr
  intro i j hi hj hij
  rw [linspace_length] at hi hj
  have hgi : (linspace a b num)[i] = (linspace a b num).getD i 0 :=
    (List.getD_eq_getElem _ _ (by rw [linspace_length]; exact hi)).symm
  have hgj : (linspace a b num)[j] = (linspace a b num).getD j 0 :=
    (List.getD_eq_getElem _ _ (by rw [linspace_length]; exact hj)).symm
  rw [hgi, hgj, linspace_getD a b hi, linspace_getD a b hj]
  rcases le_or_lt num 1 with hn | hn
  · omega
  · have hnum : (0 : ℚ) < (num : ℚ) - 1 := by
      have h2 : (2 : ℚ) ≤ (num : ℚ) := by exact_mod_cast hn
      linarith
    have hij2 : (i : ℚ) ≤ (j : ℚ) := by exact_mod_cast hij.le
    have hmul : (b - a) * (i : ℚ) ≤ (b - a) * (j : ℚ) := by nlinarith
    have hdiv := (div_le_div_iff_of_pos_right hnum).mpr hmul
    linarith

theorem linspace_head {a b : ℚ} (num : ℕ) (h : 0 < num) :
    (linspace a b num).getD 0 0 = a := by
  rw [linspace_getD a b h]
  push_cast
  ring

/-- Classification method of an indicator (src/Home.py `indicator_settings`,
lines 352-388, plus the `linear` default of line 393). -/
inductive ClassMethod where
  | manual
  | quantile
  | jenks
  | linear
deriving DecidableEq, Repr

/-- Per-indicator configuration, the spec's ClassificationSpec: one entry of
`indicator_settings` (src/Home.py lines 352-394). -/
structure ClassificationSpec where
  method : ClassMethod
  classes : ℕ
  palette : List String
  bins : Option (List ℚ)
  force_range : Option (ℚ × ℚ)
deriving DecidableEq, Repr

def unemploymentRateSpec : ClassificationSpec :=
  ⟨.jenks, 6, ["#f7fbff", "#deebf7", "#9ecae1", "#6baed6", "#3182bd", "#08519c"], none, none⟩

def medianRentSpec : ClassificationSpec :=
  ⟨.jenks, 5, ["#fff7fb", "#fbb4b9", "#f768a1", "#c51b8a", "#49006a"], none, none⟩

def shipbuildersSpec : ClassificationSpec :=
  ⟨.jenks, 6, ["#3288bd", "#66c2a5", "#abdda4", "#fee08b", "#f46d43", "#d53e4f"], none, none⟩

def recruitmentRadiusSpec : ClassificationSpec :=
  ⟨.manual, 6, ["#00204c", "#355e8d", "#7fa56e", "#d7c95f", "#f9f871", "#ffeb3b"],
    some [0, 0, 1, 3, 5, 6, 8], some (0, 8)⟩

def workerEarningsSpec : ClassificationSpec :=
  ⟨.jenks, 6, ["#f7fcf0", "#c7e9c0", "#74c476", "#31a354", "#006d2c"], none, none⟩

def homeValueSpec : ClassificationSpec :=
  ⟨.quantile, 5, ["#fff5eb", "#fdbe85", "#fd8d3c", "#e6550d", "#a63603"], none, none⟩

/-- The default of `indicator_settings.get` (src/Home.py line 393). -/
def defaultSpec : ClassificationSpec :=
  ⟨.linear, 7, ["#f7fbff", "#6baed6", "#08519c"], none, none⟩

/-- The indicator registry (src/Home.py lines 352-388). -/
def indicator_settings : List (String × ClassificationSpec) :=
  [("Unemployment Rate", unemploymentRateSpec),
   ("Median Rent Paid", medianRentSpec),
   ("Shipbuilders Employed", shipbuildersSpec),
   ("Recruitment Radius Count", recruitmentRadiusSpec),
   ("Median Worker Earnings", workerEarningsSpec),
   ("Median Home Value", homeValueSpec)]

/-- `indicator_settings.get(indicator_label, default)` (src/Home.py
lines 391-394): exact-name lookup falling back to the 3-stop linear spec. -/
def get_spec (label : String) : ClassificationSpec :=
  (indicator_settings.lookup label).getD defaultSpec

/-- Every spec the program can feed into the classifier. -/
def registrySpecs : List ClassificationSpec :=
  (indicator_settings.map Prod.snd) ++ [defaultSpec]

/-- Modelled from the spec: `mapclassify.Quantiles(vals_clean, k).bins`
(library code not in this repository).  Per spec chapter 4.1, the breaks are
"the k-quantile boundaries of the cleaned values", computed with the usual
linear-interpolation percentiles and collapsed to unique values (the spec's
edge correction speaks of "the resulting number of unique breaks"). -/
def quantiles_bins (xs : List ℚ) (k : ℕ) : List ℚ :=
  uniqueSorted ((List.range k).map (fun i : ℕ => seriesQuantile xs (((i : ℚ) + 1) / (k : ℚ))))

/-- The quantile branch of `build_map` (src/Home.py lines 423-440):
`quant_index = [vals_clean.min()] + bins`, replaced by
`np.linspace(vmin, vmax, len(palette)+1)` when its length does not match the
palette. -/
def quantileBranch (palette : List String) (k : ℕ) (xs : List ℚ) : List ℚ :=
  let bins := quantiles_bins xs k
  let quant_index := listMin xs :: bins
  if quant_index.length = palette.length + 1 then quant_index
  else linspace (listMin xs) (listMax xs) (palette.length + 1)

/-- Sum of squared deviations from the mean of one class. -/
def ssd (p : List ℚ) : ℚ :=
  (p.map (fun x => (x - p.sum / (p.length : ℚ)) ^ 2)).sum

/-- Total within-class sum of squared deviations of a partition. -/
def jenksCost (parts : List (List ℚ)) : ℚ := (parts.map ssd).sum

/-- All ways to cut a list into `k` nonempty contiguous runs. -/
def partsInto : ℕ → List ℚ → List (List (List ℚ))
  | 0, xs => if xs.isEmpty then [[]] else []
  | k + 1, xs =>
    (List.range xs.length).flatMap
      (fun i => (partsInto k (xs.drop (i + 1))).map (fun rest => xs.take (i + 1) :: rest))

/-- Modelled from the spec: `mapclassify.NaturalBreaks(vals_clean, k).bins`
(library code not in this repository).  Per spec chapter 4.1 and the glossary,
natural breaks "minimize within-class variance over the cleaned values for k
classes"; the bins reported are the class maxima of the optimal contiguous
partition of the sorted values.  An impossible request (more classes than
values) yields no bins. -/
def natural_breaks_bins (xs : List ℚ) (k : ℕ) : List ℚ :=
  match (partsInto k (sortQ xs)).argmin jenksCost with
  | some parts => parts.map listMax
  | none => []

/-- The jenks branch of `build_map` (src/Home.py lines 443-460), reached when
the cleaned column has at least 3 distinct values: `k` is reduced to
`min(n_classes, len(vals_clean.unique()) - 1)`, `jenks_index` is
`[vals_clean.min()] + bins` and is replaced by an even grid on a length
mismatch with the palette. -/
def jenksBranch (palette : List String) (n_classes : ℕ) (xs : List ℚ) : List ℚ :=
  let k := min n_classes ((uniqueSorted xs).length - 1)
  let bins := natural_breaks_bins xs k
  let jenks_index := listMin xs :: bins
  if jenks_index.length = palette.length + 1 then jenks_index
  else linspace (listMin xs) (listMax xs) (palette.length + 1)

/-- The linear fallback branch of `build_map` (src/Home.py lines 463-466):
`vmin, vmax = vals_clean.quantile(0.02), vals_clean.quantile(0.98)` and a
`LinearColormap(...).to_step(n=n_classes)` whose `n_classes + 1` boundaries
are evenly spaced between them (the stepping is modelled from the spec:
"Breaks are k+1 evenly spaced points between vmin and vmax"; `branca` is
library code not in this repository).  Note the cited lines perform no
widening when the two percentiles coincide. -/
def linearBranch (n_classes : ℕ) (xs : List ℚ) : List ℚ :=
  linspace (seriesQuantile xs (2 / 100)) (seriesQuantile xs (98 / 100)) (n_classes + 1)

/-- The break-point computation of the `try` block of `build_map`
(src/Home.py lines 406-466), acting on the cleaned values. -/
def classifyBreaks (spec : ClassificationSpec) (vals_clean : List ℚ) : List ℚ :=
  match spec.method, spec.bins with
  | .manual, some bs => bs
  | .manual, none => linearBranch spec.classes vals_clean
  | .quantile, _ => quantileBranch spec.palette spec.classes vals_clean
  | .jenks, _ =>
    if 3 ≤ (uniqueSorted vals_clean).length then jenksBranch spec.palette spec.classes vals_clean
    else linearBranch spec.classes vals_clean
  | .linear, _ => linearBranch spec.classes vals_clean

/-- The spec's `classify(values, spec) -> BreakSet` as realized by `build_map`
(src/Home.py lines 344-466): clean the column, return early with a warning
and no break set when nothing numeric remains (lines 347-349), otherwise
classify.  `none` is the early return. -/
def classify (spec : ClassificationSpec) (values : List Val) : Option (List ℚ) :=
  let vals := cleanVals values
  if vals = [] then none else some (classifyBreaks spec vals)

/-- Observable outcome of the classification/color-mapping path of
`build_map`: the early return with its warning, a colormap from the `try`
body, or the `except` fallback colormap with its warning (src/Home.py
lines 340-476). -/
inductive ClassifyOutcome where
  | noData
  | ok (breaks : List ℚ)
  | fallbackWarn (breaks : List ℚ)
deriving DecidableEq, Repr

/-- The whole classification path of `build_map` with its `try/except`
(src/Home.py lines 406-476).  `raised : Bool` is an oracle for "some library
call inside the `try` block raised"; the `except Exception` arm (lines
468-476) then rebuilds the linear-percentile stepped colormap from `vals`
and emits `st.warning`. -/
def build_map_colormap (raised : Bool) (spec : ClassificationSpec) (values : List Val) :
    ClassifyOutcome :=
  let vals := cleanVals values
  if vals = [] then .noData
  else if raised then .fallbackWarn (linearBranch spec.classes vals)
  else .ok (classifyBreaks spec vals)

/-- Argument of a `colormap(...)` call: what `float(value)` yields for a
value that is neither `None` nor NaN. -/
inductive XR where
  | fin (q : ℚ)
  | pinf
  | ninf
deriving DecidableEq, Repr

/-- Number of leading boundaries that are ≤ `q` in a boundary list (for a
sorted list, the count of all boundaries ≤ `q`). -/
def stepIdx : List ℚ → ℚ → ℕ
  | [], _ => 0
  | b :: bs, q => if b ≤ q then stepIdx bs q + 1 else 0

/-- Modelled from the spec: the value lookup of `branca.colormap.StepColormap`
(library code not in this repository).  Spec chapter 4.2: "value v maps to
palette[i] where i is the index of the half-open interval
[breaks[i], breaks[i+1]) containing v; values ≥ breaks[-1] map to the last
color; values < breaks[0] map to the first color (clamped, not
extrapolated)". -/
def stepColor (index : List ℚ) (colors : List String) : XR → String
  | .ninf => colors.getD 0 "#000000"
  | .pinf => colors.getD (colors.length - 1) "#000000"
  | .fin q =>
    colors.getD
      (if stepIdx index q = 0 then 0 else min (stepIdx index q - 1) (colors.length - 1))
      "#000000"

/-- `style_fn` (src/Home.py lines 479-488): `None` and float NaN
short-circuit to the no-data gray `"#cccccc"`; every other numeric value is
passed through `float(...)` to the colormap.  `np.isnan` is false on the
infinities, so they reach the colormap call and are clamped by it rather
than treated as missing. -/
def style_fn (colormap : XR → String) : Val → String
  | .null => "#cccccc"
  | .nan => "#cccccc"
  | .num q => colormap (.fin q)
  | .pinf => colormap .pinf
  | .ninf => colormap .ninf

/-- A cell of the "Shipyards in Radius" column: missing, a Python sequence
of names (list/set/tuple behave alike under `set(x)`), or a string. -/
inductive CellVal where
  | null
  | nan
  | listv (xs : List String)
  | strv (s : String)
deriving DecidableEq, Repr

/-- Python `str.split(",")`: cut at every comma, keeping empty pieces
(`"".split(",") == [""]`). -/
def pySplitComma : List Char → List (List Char)
  | [] => [[]]
  | c :: rest =>
    let r := pySplitComma rest
    if c = ',' then [] :: r
    else
      match r with
      | [] => [[c]]
      | h :: t => (c :: h) :: t

/-- Python `str.strip()`: drop leading and trailing whitespace. -/
def pyStrip (s : List Char) : List Char :=
  ((s.dropWhile Char.isWhitespace).reverse.dropWhile Char.isWhitespace).reverse

/-- `parse_shipyards_in_radius` (src/Home.py lines 144-150): a missing cell
gives the empty set, a sequence is converted with `set(x)`, and any other
value is stringified and split on commas only, each piece stripped and empty
pieces discarded. -/
def parse_shipyards_in_radius : CellVal → Finset String
  | .null => ∅
  | .nan => ∅
  | .listv xs => xs.toFinset
  | .strv s =>
    ((((pySplitComma s.toList).map (fun p => String.mk (pyStrip p))).filter
      (fun t => t ≠ "")).toFinset)

/-- `series.fillna(0)`: missing entries (None/NaN) become 0, everything else
- infinities included - stays (src/pages/1 line 84, src/pages/2 line 69). -/
def fillna0 (col : List Val) : List Val :=
  col.map (fun v => match v with | .null => .num 0 | .nan => .num 0 | x => x)

/-- Modelled from the spec: `mapclassify.FisherJenks(values, k).bins`
(library code not in this repository) - the spec's natural-breaks
classification, "minimizing within-class variance", computed exactly. -/
def fisher_jenks_bins (xs : List ℚ) (k : ℕ) : List ℚ := natural_breaks_bins xs k

/-- `bins[0] = v` (raises on an empty list in Python; the model keeps it). -/
def setHead (l : List ℚ) (a : ℚ) : List ℚ :=
  match l with
  | [] => []
  | _ :: t => a :: t

/-- `bins[-1] = v`. -/
def setLast (l : List ℚ) (a : ℚ) : List ℚ :=
  match l with
  | [] => []
  | _ :: _ => l.dropLast ++ [a]

/-- The Home page classification as a state transformer on the caller's
column: `replace`/`dropna` build new series (src/Home.py line 345), so the
column comes back unchanged next to the classification result. -/
def home_build_map_state (spec : ClassificationSpec) (col : List Val) :
    List Val × Option (List ℚ) :=
  (col, classify spec col)

/-- The Interactive Map page's classification path (src/pages/1 lines 84-94):
line 84, `cbp[selected_col] = cbp[selected_col].fillna(0)`, overwrites the
caller's column in place; `prepare_classified_data` then runs FisherJenks
with k=5 on the overwritten column and returns a copy plus the bins.  The
first component is the caller's column after the call. -/
def page1_prepare_classified (col : List Val) : List Val × List ℚ :=
  let col2 := fillna0 col
  (col2, fisher_jenks_bins (cleanVals col2) 5)

/-- `classify_data` of the Split Map page (src/pages/2 lines 66-74): works on
`_data.copy()`, fills missing with 0 on the copy, runs FisherJenks k=5, then
moves the outer bin edges just past the observed extremes.  The first
component is the caller's column after the call: the copy leaves it
unchanged. -/
def page2_classify_data (col : List Val) : List Val × List ℚ :=
  let copy := fillna0 col
  let xs := cleanVals copy
  let bins := fisher_jenks_bins xs 5
  let bins2 := setLast (setHead bins (listMin xs - 1 / 1000000)) (listMax xs + 1 / 1000000)
  (col, bins2)

theorem sorted_getD_last_eq_listMax {xs : List ℚ} (hs : xs.Sorted (· ≤ ·)) (hne : xs ≠ []) :
    xs.getD (xs.length - 1) 0 = listMax xs := by
  have hlen : 0 < xs.length := List.length_pos.mpr hne
  refine (listMax_eq_of (sorted_getD_mem (by omega)) ?_).symm
  intro a ha
  obtain ⟨i, hi, rfl⟩ := List.mem_iff_getElem.mp ha
  rw [← List.getD_eq_getElem xs 0 hi]
  exact sorted_getD_mono hs (by omega) (by omega)

theorem quantileSorted_one {xs : List ℚ} (hne : xs ≠ []) :
    quantileSorted xs 1 = xs.getD (xs.length - 1) 0 := by
  have hn : 1 ≤ xs.length := List.length_pos.mpr hne
  have h2 : ⌊(1 : ℚ) * ((xs.length : ℚ) - 1)⌋ = (xs.length : ℤ) - 1 := by
    rw [one_mul, show ((xs.length : ℚ) - 1) = ((xs.length : ℚ) - ((1 : ℤ) : ℚ)) by norm_num,
      Int.floor_sub_int, Int.floor_natCast]
  have htn : ((xs.length : ℤ) - 1).toNat = xs.length - 1 := by omega
  have hfr : (1 : ℚ) * ((xs.length : ℚ) - 1) - (((xs.length : ℤ) - 1 : ℤ) : ℚ) = 0 := by
    push_cast
    ring
  unfold quantileSorted
  rw [h2, htn, hfr, min_eq_right (by omega)]
  ring

theorem quantiles_bins_mem_bounds {xs : List ℚ} (hne : xs ≠ []) {k : ℕ} {a : ℚ}
    (ha : a ∈ quantiles_bins xs k) : listMin xs ≤ a ∧ a ≤ listMax xs := by
  rw [quantiles_bins, uniqueSorted_mem] at ha
  obtain ⟨i, hi, rfl⟩ := List.mem_map.mp ha
  have hik : i < k := List.mem_range.mp hi
  have hkpos : 0 < k := by omega
  have hkQ : (0 : ℚ) < (k : ℚ) := by exact_mod_cast hkpos
  have h0 : (0 : ℚ) ≤ ((i : ℚ) + 1) / (k : ℚ) := by positivity
  have h1 : ((i : ℚ) + 1) / (k : ℚ) ≤ 1 := by
    rw [div_le_one hkQ]
    have hik2 : (i : ℚ) + 1 ≤ (k : ℚ) := by exact_mod_cast hik
    exact hik2
  exact seriesQuantile_mem_bounds hne h0 h1

theorem listMax_mem_quantiles_bins {xs : List ℚ} (hne : xs ≠ []) {k : ℕ} (hk : 1 ≤ k) :
    listMax xs ∈ quantiles_bins xs k := by
  rw [quantiles_bins, uniqueSorted_mem]
  apply List.mem_map.mpr
  refine ⟨k - 1, List.mem_range.mpr (by omega), ?_⟩
  have hkQ : (k : ℚ) ≠ 0 := by
    have : (0 : ℚ) < (k : ℚ) := by exact_mod_cast hk
    exact ne_of_gt this
  have hq : (((k - 1 : ℕ) : ℚ) + 1) / (k : ℚ) = 1 := by
    have hc : ((k - 1 : ℕ) : ℚ) = (k : ℚ) - 1 := by
      push_cast [Nat.cast_sub hk]
      ring
    rw [hc]
    field_simp
  rw [hq]
  have hne2 : sortQ xs ≠ [] := fun h => hne ((sortQ_eq_nil_iff xs).mp h)
  rw [seriesQuantile, quantileSorted_one hne2,
    sorted_getD_last_eq_listMax (sortQ_sorted xs) hne2]
  exact listMax_congr_perm (sortQ_perm xs)

theorem linearBranch_props {n : ℕ} {xs : List ℚ} (hne : xs ≠ []) :
    (linearBranch n xs).Sorted (· ≤ ·) ∧ (linearBranch n xs).length = n + 1 := by
  have hmono : seriesQuantile xs (2 / 100) ≤ seriesQuantile xs (98 / 100) :=
    seriesQuantile_mono hne (by norm_num) (by norm_num) (by norm_num)
  exact ⟨linspace_sorted hmono _, linspace_length _ _ _⟩

theorem linspace_last_getD {a b : ℚ} {n : ℕ} (hn : 1 ≤ n) :
    (linspace a b (n + 1)).getD n 0 = b := by
  rw [linspace_getD _ _ (by omega)]
  have hp : ((n + 1 : ℕ) : ℚ) - 1 = (n : ℚ) := by push_cast; ring
  rw [hp]
  have hnQ : (n : ℚ) ≠ 0 := by
    have : (0 : ℚ) < (n : ℚ) := by exact_mod_cast hn
    exact ne_of_gt this
  field_simp

theorem quantileBranch_props {pal : List String} {k : ℕ} {xs : List ℚ}
    (hne : xs ≠ []) (hk : 1 ≤ k) (hpal : 1 ≤ pal.length) :
    (quantileBranch pal k xs).Sorted (· ≤ ·) ∧
      (quantileBranch pal k xs).length = pal.length + 1 ∧
      listMin (quantileBranch pal k xs) ≤ listMin xs ∧
      listMax xs ≤ listMax (quantileBranch pal k xs) := by
  have hminmax : listMin xs ≤ listMax xs := listMin_le (listMax_mem hne)
  by_cases hcond : (listMin xs :: quantiles_bins xs k).length = pal.length + 1
  · have heq : quantileBranch pal k xs = listMin xs :: quantiles_bins xs k := by
      unfold quantileBranch
      simp only [hcond, if_pos]
    rw [heq]
    refine ⟨?_, hcond, ?_, ?_⟩
    · apply List.sorted_cons.mpr
      exact ⟨fun b hb => (quantiles_bins_mem_bounds hne hb).1,
        (sortQ_sorted _).sublist (List.dedup_sublist _)⟩
    · exact listMin_le (List.mem_cons_self _ _)
    · exact le_listMax (List.mem_cons_of_mem _ (listMax_mem_quantiles_bins hne hk))
  · have heq : quantileBranch pal k xs =
        linspace (listMin xs) (listMax xs) (pal.length + 1) := by
      unfold quantileBranch
      simp only [hcond, if_neg, if_false]
    rw [heq]
    refine ⟨linspace_sorted hminmax _, linspace_length _ _ _, ?_, ?_⟩
    · have hmem : listMin xs ∈ linspace (listMin xs) (listMax xs) (pal.length + 1) := by
        have h0 := linspace_head (a := listMin xs) (b := listMax xs) (pal.length + 1) (by omega)
        have h1 : (linspace (listMin xs) (listMax xs) (pal.length + 1)).getD 0 0 ∈
            linspace (listMin xs) (listMax xs) (pal.length + 1) := by
          apply sorted_getD_mem
          rw [linspace_length]
          omega
        rwa [h0] at h1
      exact listMin_le hmem
    · have hmem : listMax xs ∈ linspace (listMin xs) (listMax xs) (pal.length + 1) := by
        have h0 := linspace_last_getD (a := listMin xs) (b := listMax xs) hpal
        have h1 : (linspace (listMin xs) (listMax xs) (pal.length + 1)).getD pal.length 0 ∈
            linspace (listMin xs) (listMax xs) (pal.length + 1) := by
          apply sorted_getD_mem
          rw [linspace_length]
          omega
        rwa [h0] at h1
      exact le_listMax hmem

theorem partsInto_spec {k : ℕ} : ∀ {xs : List ℚ} {p : List (List ℚ)},
    p ∈ partsInto k xs → p.flatten = xs ∧ (∀ part ∈ p, part ≠ []) ∧ p.length = k := by
  induction k with
  | zero =>
    intro xs p hp
    by_cases hxs : xs.isEmpty
    · simp only [partsInto, hxs, if_pos, List.mem_singleton] at hp
      subst hp
      exact ⟨(List.isEmpty_iff.mp hxs).symm, by simp, rfl⟩
    · simp [partsInto, hxs] at hp
  | succ k ih =>
    intro xs p hp
    simp only [partsInto] at hp
    obtain ⟨i, hi, hpf⟩ := List.mem_flatMap.mp hp
    obtain ⟨rest, hrest, rfl⟩ := List.mem_map.mp hpf
    have hilt : i < xs.length := List.mem_range.mp hi
    obtain ⟨hjoin, hne, hlen⟩ := ih hrest
    refine ⟨?_, ?_, by simp [hlen]⟩
    · rw [List.flatten_cons, hjoin, List.take_append_drop]
    · intro part hpart
      rcases List.mem_cons.mp hpart with rfl | hm
      · intro hnil
        have := List.length_take (i + 1) xs
        rw [hnil] at this
        simp at this
        omega
      · exact hne part hm

theorem maxima_sorted_of_join_sorted {p : List (List ℚ)}
    (hj : p.flatten.Sorted (· ≤ ·)) (hne : ∀ part ∈ p, part ≠ []) :
    (p.map listMax).Sorted (· ≤ ·) ∧ ∀ m ∈ p.map listMax, m ∈ p.flatten := by
  induction p with
  | nil => simp
  | cons part rest ih =>
    rw [List.flatten_cons] at hj
    rcases List.pairwise_append.mp hj with ⟨hp1, hp2, hp12⟩
    obtain ⟨ihs, ihm⟩ := ih hp2 (fun q hq => hne q (List.mem_cons_of_mem _ hq))
    have hpartne : part ≠ [] := hne part (List.mem_cons_self _ _)
    constructor
    · rw [List.map_cons]
      apply List.sorted_cons.mpr
      refine ⟨?_, ihs⟩
      intro m hm
      exact hp12 (listMax part) (listMax_mem hpartne) m (ihm m hm)
    · intro m hm
      rw [List.map_cons] at hm
      rw [List.flatten_cons]
      rcases List.mem_cons.mp hm with rfl | hm2
      · exact List.mem_append.mpr (Or.inl (listMax_mem hpartne))
      · exact List.mem_append.mpr (Or.inr (ihm m hm2))

theorem natural_breaks_bins_props {xs : List ℚ} (k : ℕ) :
    (natural_breaks_bins xs k).Sorted (· ≤ ·) ∧
      (∀ b ∈ natural_breaks_bins xs k, b ∈ xs) ∧
      ((partsInto k (sortQ xs)).argmin jenksCost ≠ none →
        (natural_breaks_bins xs k).length = k) := by
  unfold natural_breaks_bins
  cases hm : (partsInto k (sortQ xs)).argmin jenksCost with
  | none => simp
  | some parts =>
    have hmem := List.argmin_mem hm
    obtain ⟨hjoin, hpne, hlen⟩ := partsInto_spec hmem
    have hsx : (parts.flatten).Sorted (· ≤ ·) := by
      rw [hjoin]
      exact sortQ_sorted xs
    obtain ⟨hs, hm2⟩ := maxima_sorted_of_join_sorted hsx hpne
    refine ⟨hs, ?_, ?_⟩
    · intro b hb
      exact (sortQ_perm xs).mem_iff.mp (by rw [← hjoin]; exact hm2 b hb)
    · intro _
      simp [hlen]

theorem jenksBranch_sorted_length {pal : List String} {n_classes : ℕ} {xs : List ℚ}
    (hne : xs ≠ []) (hpal : 1 ≤ pal.length) :
    (jenksBranch pal n_classes xs).Sorted (· ≤ ·) ∧
      (jenksBranch pal n_classes xs).length = pal.length + 1 := by
  have hminmax : listMin xs ≤ listMax xs := listMin_le (listMax_mem hne)
  obtain ⟨hbs, hbmem, _⟩ :=
    @natural_breaks_bins_props xs (min n_classes ((uniqueSorted xs).length - 1))
  by_cases hcond : (listMin xs ::
      natural_breaks_bins xs (min n_classes ((uniqueSorted xs).length - 1))).length =
      pal.length + 1
  · have heq : jenksBranch pal n_classes xs =
        listMin xs :: natural_breaks_bins xs (min n_classes ((uniqueSorted xs).length - 1)) := by
      unfold jenksBranch
      simp only [hcond, if_pos]
    rw [heq]
    refine ⟨List.sorted_cons.mpr ⟨fun b hb => listMin_le (hbmem b hb), hbs⟩, hcond⟩
  · have heq : jenksBranch pal n_classes xs =
        linspace (listMin xs) (listMax xs) (pal.length + 1) := by
      unfold jenksBranch
      simp only [hcond, if_neg, if_false]
    rw [heq]
    exact ⟨linspace_sorted hminmax _, linspace_length _ _ _⟩

theorem stepIdx_all_le {index : List ℚ} {q : ℚ} (h : ∀ b ∈ index, b ≤ q) :
    stepIdx index q = index.length := by
  induction index with
  | nil => rfl
  | cons b bs ih =>
    have hb : b ≤ q := h b (List.mem_cons_self _ _)
    have ht := ih (fun x hx => h x (List.mem_cons_of_mem _ hx))
    simp [stepIdx, hb, ht]

theorem stepIdx_interval {index : List ℚ} {q : ℚ} {i : ℕ}
    (hs : index.Sorted (· ≤ ·)) (hi : i + 1 < index.length)
    (h1 : index.getD i 0 ≤ q) (h2 : q < index.getD (i + 1) 0) :
    stepIdx index q = i + 1 := by
  induction index generalizing i with
  | nil => simp at hi
  | cons b bs ih =>
    rcases List.sorted_cons.mp hs with ⟨hb, hbs⟩
    cases i with
    | zero =>
      have hble : b ≤ q := by simpa using h1
      have hlen : 0 < bs.length := by
        simp only [List.length_cons] at hi
        omega
      have hq : q < bs.getD 0 0 := by simpa [List.getD_cons_succ] using h2
      have hz : stepIdx bs q = 0 := by
        match bs, hlen with
        | c :: t, _ =>
          have hcq : ¬ c ≤ q := not_le.mpr (by simpa using hq)
          simp [stepIdx, hcq]
      simp [stepIdx, hble, hz]
    | succ j =>
      have hlen : j + 1 < bs.length := by
        simp only [List.length_cons] at hi
        omega
      have h1b : bs.getD j 0 ≤ q := by simpa [List.getD_cons_succ] using h1
      have h2b : q < bs.getD (j + 1) 0 := by simpa [List.getD_cons_succ] using h2
      have hble : b ≤ q := le_trans (hb _ (sorted_getD_mem (by omega))) h1b
      simp [stepIdx, hble, ih hbs hlen h1b h2b]

/-- Claim C1, amended: for every classification method, an empty or
all-missing (None/NaN/infinite) input makes `build_map` return early with the
"No valid numeric data" warning and no BreakSet at all - not the fallback
range [0.0, 1.0] - and the (total) classification path does not raise. -/
theorem c1_empty_input_no_breakset (spec : ClassificationSpec) (raised : Bool)
    (values : List Val) (h : ∀ v ∈ values, v.isFinite = false) :
    classify spec values = none ∧
      build_map_colormap raised spec values = ClassifyOutcome.noData := by
  have hnil := cleanVals_eq_nil values h
  exact ⟨by simp [classify, hnil], by simp [build_map_colormap, hnil]⟩

/-- Claim C1, counterexample: on an all-missing column, `classify` yields no
break set at all, which is not the claimed fallback BreakSet [0.0, 1.0]. -/
theorem c1_counterexample :
    classify unemploymentRateSpec [Val.nan] = none ∧
      (none : Option (List ℚ)) ≠ some [0, 1] := by decide

theorem c1_witness :
    classify unemploymentRateSpec [Val.nan, Val.pinf, Val.null] = none ∧
      build_map_colormap false unemploymentRateSpec [Val.nan, Val.pinf, Val.null] =
        ClassifyOutcome.noData :=
  c1_empty_input_no_breakset unemploymentRateSpec false _ (by decide)

/-- Claim C5, amended: for a manual-method spec with configured bins,
`classify` returns exactly those bins on every input whose cleaned values are
nonempty, independently of what those values are; an all-missing input
instead takes the early return and produces no bins at all. -/
theorem c5_manual_returns_bins (spec : ClassificationSpec) (bs : List ℚ)
    (hm : spec.method = ClassMethod.manual) (hb : spec.bins = some bs)
    (values other : List Val) (h : cleanVals values ≠ []) (h2 : cleanVals other ≠ []) :
    classify spec values = some bs ∧ classify spec values = classify spec other := by
  have key : ∀ w : List Val, cleanVals w ≠ [] → classify spec w = some bs := by
    intro w hw
    have hcb : classifyBreaks spec (cleanVals w) = bs := by
      unfold classifyBreaks
      rw [hm, hb]
    simp [classify, hw, hcb]
  rw [key values h, key other h2]
  exact ⟨rfl, rfl⟩

/-- Claim C5, counterexample: the manual indicator with an all-missing input
does not return `spec.bins` - the empty-domain guard fires first. -/
theorem c5_counterexample :
    recruitmentRadiusSpec.method = ClassMethod.manual ∧
      recruitmentRadiusSpec.bins = some [0, 0, 1, 3, 5, 6, 8] ∧
      classify recruitmentRadiusSpec [Val.nan] = none ∧
      (none : Option (List ℚ)) ≠ some [0, 0, 1, 3, 5, 6, 8] := by decide

theorem c5_witness :
    classify recruitmentRadiusSpec [Val.num 4, Val.nan] = some [0, 0, 1, 3, 5, 6, 8] ∧
      classify recruitmentRadiusSpec [Val.num 4, Val.nan] =
        classify recruitmentRadiusSpec [Val.num 9000] :=
  c5_manual_returns_bins recruitmentRadiusSpec [0, 0, 1, 3, 5, 6, 8] rfl rfl
    [Val.num 4, Val.nan] [Val.num 9000] (by decide) (by decide)

/-- Claim C6, amended: the linear-percentile branch sets vmin and vmax to the
2nd and 98th percentiles of the cleaned values and returns classes+1 evenly
spaced breaks between them, with no widening when the two coincide: on a
constant column (all values 7.0) every break equals the constant, a
degenerate range [7.0, 7.0] rather than the claimed [6.5, 7.5]. -/
theorem c6_linear_no_widening (spec : ClassificationSpec) (values : List Val) (c : ℚ)
    (hm : spec.method = ClassMethod.linear) (hne : cleanVals values ≠ [])
    (hc : ∀ q ∈ cleanVals values, q = c) :
    seriesQuantile (cleanVals values) (2 / 100) = c ∧
      seriesQuantile (cleanVals values) (98 / 100) = c ∧
      classify spec values = some (List.replicate (spec.classes + 1) c) := by
  have h02 := seriesQuantile_const hne hc (q := 2 / 100) (by norm_num) (by norm_num)
  have h98 := seriesQuantile_const hne hc (q := 98 / 100) (by norm_num) (by norm_num)
  refine ⟨h02, h98, ?_⟩
  have hcb : classifyBreaks spec (cleanVals values) =
      linearBranch spec.classes (cleanVals values) := by
    unfold classifyBreaks
    rw [hm]
  have hlb : linearBranch spec.classes (cleanVals values) =
      linspace c c (spec.classes + 1) := by
    unfold linearBranch
    rw [h02, h98]
  have hlc : linspace c c (spec.classes + 1) = List.replicate (spec.classes + 1) c := by
    apply List.eq_replicate.mpr
    refine ⟨linspace_length _ _ _, ?_⟩
    intro b hb
    rw [linspace] at hb
    obtain ⟨i, hi, rfl⟩ := List.mem_map.mp hb
    ring
  simp [classify, hne, hcb, hlb, hlc]

/-- Claim C6, counterexample: on the all-7.0 column the linear-percentile
breaks are all exactly 7; the range is [7, 7], not the claimed widened and
padded [6.5, 7.5]. -/
theorem c6_counterexample :
    defaultSpec.method = ClassMethod.linear ∧
      classify defaultSpec [Val.num 7, Val.num 7, Val.num 7] =
        some [7, 7, 7, 7, 7, 7, 7, 7] ∧
      ¬ ((7 : ℚ) = 13 / 2 ∨ (7 : ℚ) = 15 / 2) := by decide

theorem c6_witness :
    seriesQuantile (cleanVals [Val.num 7, Val.num 7, Val.num 7]) (2 / 100) = 7 ∧
      seriesQuantile (cleanVals [Val.num 7, Val.num 7, Val.num 7]) (98 / 100) = 7 ∧
      classify defaultSpec [Val.num 7, Val.num 7, Val.num 7] =
        some (List.replicate 8 7) :=
  c6_linear_no_widening defaultSpec [Val.num 7, Val.num 7, Val.num 7] 7 rfl
    (by decide) (by decide)

/-- Claim C9, amended: the Home page pipeline filters missing and infinite
entries into a fresh series and the Split Map's classify_data fills missing
values on a copy, both leaving the caller's column unchanged; the
Interactive Map page, however, overwrites the caller's column in place,
replacing every missing entry with 0 before classification. -/
theorem c9_caller_column_mutation (spec : ClassificationSpec) (col : List Val) :
    (home_build_map_state spec col).1 = col ∧
      (page2_classify_data col).1 = col ∧
      (page1_prepare_classified col).1 = fillna0 col :=
  ⟨rfl, rfl, rfl⟩

/-- Claim C9, counterexample: after the Interactive Map page's classification
path runs on a column holding a missing entry, the caller's column has that
entry overwritten with 0. -/
theorem c9_counterexample :
    (page1_prepare_classified [Val.num 1, Val.nan]).1 = [Val.num 1, Val.num 0] ∧
      [Val.num 1, Val.num 0] ≠ [Val.num 1, Val.nan] := by decide

/-- Claim C10, amended: `parse_shipyards_in_radius` sends missing cells to
the empty set, converts list cells with `set(...)`, and splits string cells
on commas only, stripping whitespace and dropping empty pieces; semicolons
are not treated as delimiters (a semicolon-separated string survives as a
single member). -/
theorem c10_parse_normalization :
    (parse_shipyards_in_radius CellVal.null = ∅ ∧
      parse_shipyards_in_radius CellVal.nan = ∅) ∧
      (∀ xs : List String, ∀ t : String,
        t ∈ parse_shipyards_in_radius (CellVal.listv xs) ↔ t ∈ xs) ∧
      (∀ s t : String,
        t ∈ parse_shipyards_in_radius (CellVal.strv s) ↔
          t ≠ "" ∧ ∃ p ∈ pySplitComma s.toList, String.mk (pyStrip p) = t) := by
  refine ⟨⟨rfl, rfl⟩, ?_, ?_⟩
  · intro xs t
    simp [parse_shipyards_in_radius]
  · intro s t
    simp only [parse_shipyards_in_radius, List.mem_toFinset, List.mem_filter, List.mem_map,
      decide_eq_true_eq]
    constructor
    · rintro ⟨⟨p, hp, rfl⟩, hne⟩
      exact ⟨hne, p, hp, rfl⟩
    · rintro ⟨hne, p, hp, rfl⟩
      exact ⟨⟨p, hp, rfl⟩, hne⟩

/-- Claim C10, counterexample: a semicolon-separated cell is not split - the
whole string becomes one member - contradicting "commas or semicolons". -/
theorem c10_counterexample :
    parse_shipyards_in_radius (CellVal.strv "Austal USA; Bollinger") =
      {"Austal USA; Bollinger"} ∧
      ({"Austal USA; Bollinger"} : Finset String) ≠ {"Austal USA", "Bollinger"} := by decide

/-- Claim C4, amended: `style_fn` sends None and NaN to the fixed sentinel
"#cccccc", which differs from every palette color in the registry; the
infinities are not intercepted (`np.isnan` is false on them), so they reach
the colormap and clamp to the last/first palette color instead of the
sentinel. -/
theorem c4_missing_value_colors (index : List ℚ) (colors : List String) :
    (style_fn (stepColor index colors) Val.null = "#cccccc" ∧
      style_fn (stepColor index colors) Val.nan = "#cccccc") ∧
      style_fn (stepColor index colors) Val.pinf =
        colors.getD (colors.length - 1) "#000000" ∧
      style_fn (stepColor index colors) Val.ninf = colors.getD 0 "#000000" ∧
      ∀ spec ∈ registrySpecs, "#cccccc" ∉ spec.palette := by
  exact ⟨⟨rfl, rfl⟩, rfl, rfl, by decide⟩

/-- Claim C4, counterexample: +infinity is colored with the last palette
color, not the sentinel no-data color. -/
theorem c4_counterexample :
    style_fn (stepColor [0, 0, 1, 3, 5, 6, 8] recruitmentRadiusSpec.palette) Val.pinf =
      "#ffeb3b" ∧ ("#ffeb3b" : String) ≠ "#cccccc" := by decide

/-- Claim C3: for sorted breaks with one more boundary than palette colors,
the stepped colormap sends a value inside the half-open interval
[breaks[i], breaks[i+1]) to palette[i], clamps values below the first
boundary to the first color, and clamps values at or above the last boundary
to the last color. -/
theorem c3_step_colormap_rule (index : List ℚ) (colors : List String)
    (hs : index.Sorted (· ≤ ·)) (hlen : index.length = colors.length + 1) :
    (∀ i : ℕ, ∀ q : ℚ, i + 1 < index.length → index.getD i 0 ≤ q →
      q < index.getD (i + 1) 0 →
      stepColor index colors (XR.fin q) = colors.getD i "#000000") ∧
      (∀ q : ℚ, q < index.getD 0 0 →
        stepColor index colors (XR.fin q) = colors.getD 0 "#000000") ∧
      (∀ q : ℚ, index.getD (index.length - 1) 0 ≤ q →
        stepColor index colors (XR.fin q) = colors.getD (colors.length - 1) "#000000") := by
  refine ⟨?_, ?_, ?_⟩
  · intro i q h1 h2 h3
    have hidx : stepIdx index q = i + 1 := stepIdx_interval hs h1 h2 h3
    have hi : i < colors.length := by omega
    simp only [stepColor, hidx]
    rw [if_neg (by omega)]
    congr 1
    omega
  · intro q hq
    have hz : stepIdx index q = 0 := by
      cases index with
      | nil => rfl
      | cons b bs =>
        have hble : ¬ b ≤ q := not_le.mpr (by simpa using hq)
        simp [stepIdx, hble]
    simp [stepColor, hz]
  · intro q hq
    have hall : ∀ b ∈ index, b ≤ q := by
      intro b hb
      obtain ⟨i, hi, rfl⟩ := List.mem_iff_getElem.mp hb
      have h2 := sorted_getD_mono hs (i := i) (j := index.length - 1) (by omega) (by omega)
      rw [List.getD_eq_getElem index 0 hi] at h2
      exact le_trans h2 hq
    have hidx := stepIdx_all_le hall
    simp only [stepColor, hidx, hlen]
    rw [if_neg (by omega)]
    congr 1
    omega

/-- Claim C3, witness: manual bins [0,0,1,3,5,6,8] with the 6-color palette:
the value 4 lies in [3, 5), the interval of index 3, and receives
palette[3]. -/
theorem c3_witness :
    ([0, 0, 1, 3, 5, 6, 8] : List ℚ).Sorted (· ≤ ·) ∧
      stepColor [0, 0, 1, 3, 5, 6, 8] recruitmentRadiusSpec.palette (XR.fin 4) =
        recruitmentRadiusSpec.palette.getD 3 "#000000" ∧
      recruitmentRadiusSpec.palette.getD 3 "#000000" = "#d7c95f" := by
  refine ⟨by decide, ?_, by decide⟩
  exact (c3_step_colormap_rule [0, 0, 1, 3, 5, 6, 8] recruitmentRadiusSpec.palette
    (by decide) (by decide)).1 3 4 (by decide) (by decide) (by decide)

/-- Claim C2: with a nonempty cleaned column the classification path never
takes the no-data exit, and if anything inside the try block raises, the
except arm returns the linear-percentile fallback - a stepped colormap
between the 2nd and 98th percentiles of the values - together with the
st.warning signal; that fallback break set is well-formed: classes+1 sorted
boundaries. -/
theorem c2_error_caught_fallback (spec : ClassificationSpec) (values : List Val)
    (h : cleanVals values ≠ []) :
    (∀ raised : Bool, build_map_colormap raised spec values ≠ ClassifyOutcome.noData) ∧
      build_map_colormap true spec values =
        ClassifyOutcome.fallbackWarn (linearBranch spec.classes (cleanVals values)) ∧
      (linearBranch spec.classes (cleanVals values)).length = spec.classes + 1 ∧
      (linearBranch spec.classes (cleanVals values)).Sorted (· ≤ ·) := by
  obtain ⟨hsorted, hlength⟩ := linearBranch_props (n := spec.classes) h
  refine ⟨?_, ?_, hlength, hsorted⟩
  · intro raised
    cases raised <;> simp [build_map_colormap, h]
  · simp [build_map_colormap, h]

theorem c2_witness :
    cleanVals [Val.num 7, Val.num 9] ≠ [] ∧
      build_map_colormap true defaultSpec [Val.num 7, Val.num 9] =
        ClassifyOutcome.fallbackWarn (linearBranch 7 [7, 9]) ∧
      (linearBranch 7 [7, 9]).length = 8 := by
  refine ⟨by decide, ?_, ?_⟩
  · exact (c2_error_caught_fallback defaultSpec [Val.num 7, Val.num 9] (by decide)).2.1
  · exact (c2_error_caught_fallback defaultSpec [Val.num 7, Val.num 9] (by decide)).2.2.1

theorem linspace_step {a b : ℚ} {n : ℕ} (hn : 1 ≤ n) {i : ℕ} (hi : i + 1 < n + 1) :
    (linspace a b (n + 1)).getD (i + 1) 0 - (linspace a b (n + 1)).getD i 0 =
      (b - a) / (n : ℚ) := by
  rw [linspace_getD _ _ hi, linspace_getD _ _ (by omega)]
  have hp : ((n + 1 : ℕ) : ℚ) - 1 = (n : ℚ) := by push_cast; ring
  rw [hp]
  have hnQ : (n : ℚ) ≠ 0 := by
    have h0 : (0 : ℚ) < (n : ℚ) := by exact_mod_cast hn
    exact ne_of_gt h0
  push_cast
  field_simp
  ring

/-- Claim C7: quantile classification prepends the observed minimum to the
unique k-quantile boundaries; when that break list does not come out with
k+1 entries (heavy ties), the branch falls back to k+1 evenly spaced breaks
running from the observed minimum to the observed maximum. -/
theorem c7_quantile_breaks (spec : ClassificationSpec) (values : List Val)
    (hm : spec.method = ClassMethod.quantile) (hk : spec.classes = spec.palette.length)
    (hkpos : 1 ≤ spec.classes) (hne : cleanVals values ≠ []) :
    ((quantiles_bins (cleanVals values) spec.classes).length = spec.classes →
      classify spec values =
        some (listMin (cleanVals values) ::
          quantiles_bins (cleanVals values) spec.classes)) ∧
      ((quantiles_bins (cleanVals values) spec.classes).length ≠ spec.classes →
        ∃ breaks : List ℚ, classify spec values = some breaks ∧
          breaks.length = spec.classes + 1 ∧
          breaks.getD 0 0 = listMin (cleanVals values) ∧
          breaks.getD spec.classes 0 = listMax (cleanVals values) ∧
          ∀ i : ℕ, i + 1 < breaks.length →
            breaks.getD (i + 1) 0 - breaks.getD i 0 =
              (listMax (cleanVals values) - listMin (cleanVals values)) /
                (spec.classes : ℚ)) := by
  have hcb : classifyBreaks spec (cleanVals values) =
      quantileBranch spec.palette spec.classes (cleanVals values) := by
    unfold classifyBreaks
    rw [hm]
  constructor
  · intro hlen
    have hq : quantileBranch spec.palette spec.classes (cleanVals values) =
        listMin (cleanVals values) :: quantiles_bins (cleanVals values) spec.classes := by
      unfold quantileBranch
      rw [if_pos (by simp only [List.length_cons]; omega)]
    simp [classify, hne, hcb, hq]
  · intro hlen
    have hq : quantileBranch spec.palette spec.classes (cleanVals values) =
        linspace (listMin (cleanVals values)) (listMax (cleanVals values))
          (spec.palette.length + 1) := by
      unfold quantileBranch
      rw [if_neg (by simp only [List.length_cons]; omega)]
    refine ⟨linspace (listMin (cleanVals values)) (listMax (cleanVals values))
      (spec.palette.length + 1), ?_, ?_, ?_, ?_, ?_⟩
    · simp [classify, hne, hcb, hq]
    · rw [linspace_length]
      omega
    · exact linspace_head _ (by omega)
    · rw [hk]
      exact linspace_last_getD (a := listMin (cleanVals values))
        (b := listMax (cleanVals values)) (n := spec.palette.length) (by omega)
    · intro i hi
      rw [linspace_length] at hi
      rw [hk]
      exact linspace_step (a := listMin (cleanVals values))
        (b := listMax (cleanVals values)) (n := spec.palette.length) (i := i)
        (by omega) (by omega)

/-- Claim C7, witness: values [1,1,1,1,2] with k=5 produce only 3 unique
quantile boundaries, so the fallback yields 6 evenly spaced breaks from 1
to 2. -/
theorem c7_witness :
    (quantiles_bins (cleanVals [Val.num 1, Val.num 1, Val.num 1, Val.num 1, Val.num 2])
        homeValueSpec.classes).length ≠ homeValueSpec.classes ∧
      ∃ breaks : List ℚ,
        classify homeValueSpec [Val.num 1, Val.num 1, Val.num 1, Val.num 1, Val.num 2] =
          some breaks ∧
        breaks.length = homeValueSpec.classes + 1 ∧
        breaks.getD 0 0 =
          listMin (cleanVals [Val.num 1, Val.num 1, Val.num 1, Val.num 1, Val.num 2]) ∧
        breaks.getD homeValueSpec.classes 0 =
          listMax (cleanVals [Val.num 1, Val.num 1, Val.num 1, Val.num 1, Val.num 2]) ∧
        ∀ i : ℕ, i + 1 < breaks.length →
          breaks.getD (i + 1) 0 - breaks.getD i 0 =
            (listMax (cleanVals [Val.num 1, Val.num 1, Val.num 1, Val.num 1, Val.num 2]) -
              listMin (cleanVals [Val.num 1, Val.num 1, Val.num 1, Val.num 1, Val.num 2])) /
              (homeValueSpec.classes : ℚ) := by
  refine ⟨by decide, ?_⟩
  exact (c7_quantile_breaks homeValueSpec
    [Val.num 1, Val.num 1, Val.num 1, Val.num 1, Val.num 2] rfl rfl (by decide)
    (by decide)).2 (by decide)

theorem classifyBreaks_jenks_case {spec : ClassificationSpec}
    (hm : spec.method = ClassMethod.jenks) {xs : List ℚ} (hne : xs ≠ [])
    (hpal : 1 ≤ spec.palette.length) (hcls : 1 ≤ spec.classes) :
    2 ≤ (classifyBreaks spec xs).length ∧ (classifyBreaks spec xs).Sorted (· ≤ ·) := by
  have hcb : classifyBreaks spec xs =
      if 3 ≤ (uniqueSorted xs).length then jenksBranch spec.palette spec.classes xs
      else linearBranch spec.classes xs := by
    unfold classifyBreaks
    rw [hm]
  rw [hcb]
  by_cases h3 : 3 ≤ (uniqueSorted xs).length
  · rw [if_pos h3]
    obtain ⟨hs, hl⟩ := jenksBranch_sorted_length hne hpal
    exact ⟨by omega, hs⟩
  · rw [if_neg h3]
    obtain ⟨hs, hl⟩ := linearBranch_props hne
    exact ⟨by omega, hs⟩

/-- Claim C8, amended: for every registry spec and nonempty numeric input the
returned BreakSet has at least 2 boundaries and is non-decreasing; the
bracketing of the data - first boundary ≤ min, last boundary ≥ max - holds
for the quantile method, but not in general for manual (fixed bins ignore
the data) or linear-percentile (clipped at the 2nd/98th percentiles). -/
theorem c8_breakset_invariants (spec : ClassificationSpec) (values : List Val)
    (hspec : spec ∈ registrySpecs) (hne : cleanVals values ≠ []) (breaks : List ℚ)
    (hb : classify spec values = some breaks) :
    2 ≤ breaks.length ∧ breaks.Sorted (· ≤ ·) ∧
      (spec.method = ClassMethod.quantile →
        listMin breaks ≤ listMin (cleanVals values) ∧
        listMax (cleanVals values) ≤ listMax breaks) := by
  have hbreq : breaks = classifyBreaks spec (cleanVals values) := by
    simp only [classify, if_neg hne, Option.some_inj] at hb
    exact hb.symm
  subst hbreq
  have hxs := hne
  simp only [registrySpecs, indicator_settings, List.map_cons, List.map_nil,
    List.mem_append, List.mem_cons, List.mem_singleton, List.not_mem_nil, or_false] at hspec
  rcases hspec with (rfl | rfl | rfl | rfl | rfl | rfl) | rfl
  · obtain ⟨hl, hs⟩ :=
      @classifyBreaks_jenks_case unemploymentRateSpec rfl _ hxs (by decide) (by decide)
    exact ⟨hl, hs, fun hq => ClassMethod.noConfusion hq⟩
  · obtain ⟨hl, hs⟩ :=
      @classifyBreaks_jenks_case medianRentSpec rfl _ hxs (by decide) (by decide)
    exact ⟨hl, hs, fun hq => ClassMethod.noConfusion hq⟩
  · obtain ⟨hl, hs⟩ :=
      @classifyBreaks_jenks_case shipbuildersSpec rfl _ hxs (by decide) (by decide)
    exact ⟨hl, hs, fun hq => ClassMethod.noConfusion hq⟩
  · have hcb : classifyBreaks recruitmentRadiusSpec (cleanVals values) =
        [0, 0, 1, 3, 5, 6, 8] := rfl
    rw [hcb]
    exact ⟨by decide, by decide, fun hq => ClassMethod.noConfusion hq⟩
  · obtain ⟨hl, hs⟩ :=
      @classifyBreaks_jenks_case workerEarningsSpec rfl _ hxs (by decide) (by decide)
    exact ⟨hl, hs, fun hq => ClassMethod.noConfusion hq⟩
  · have hcb : classifyBreaks homeValueSpec (cleanVals values) =
        quantileBranch homeValueSpec.palette homeValueSpec.classes (cleanVals values) := rfl
    rw [hcb]
    obtain ⟨hs, hl, hmin, hmax⟩ :=
      @quantileBranch_props homeValueSpec.palette homeValueSpec.classes _
        hxs (by decide) (by decide)
    exact ⟨by rw [hl]; decide, hs, fun _ => ⟨hmin, hmax⟩⟩
  · have hcb : classifyBreaks defaultSpec (cleanVals values) =
        linearBranch defaultSpec.classes (cleanVals values) := rfl
    rw [hcb]
    obtain ⟨hs, hl⟩ := linearBranch_props (n := defaultSpec.classes) hxs
    exact ⟨by rw [hl]; decide, hs, fun hq => ClassMethod.noConfusion hq⟩

/-- Claim C8, counterexample: the manual method's fixed bins do not bracket
the data - with input [9] the last boundary is 8, below the maximum 9. -/
theorem c8_counterexample :
    recruitmentRadiusSpec ∈ registrySpecs ∧
      classify recruitmentRadiusSpec [Val.num 9] = some [0, 0, 1, 3, 5, 6, 8] ∧
      listMax (cleanVals [Val.num 9]) = 9 ∧
      listMax [0, 0, 1, 3, 5, 6, 8] = 8 ∧
      ¬ ((9 : ℚ) ≤ 8) := by decide

theorem c8_witness :
    2 ≤ ([1, 6 / 5, 7 / 5, 8 / 5, 9 / 5, 2] : List ℚ).length ∧
      ([1, 6 / 5, 7 / 5, 8 / 5, 9 / 5, 2] : List ℚ).Sorted (· ≤ ·) ∧
      (homeValueSpec.method = ClassMethod.quantile →
        listMin [1, 6 / 5, 7 / 5, 8 / 5, 9 / 5, 2] ≤
          listMin (cleanVals [Val.num 1, Val.num 1, Val.num 1, Val.num 1, Val.num 2]) ∧
        listMax (cleanVals [Val.num 1, Val.num 1, Val.num 1, Val.num 1, Val.num 2]) ≤
          listMax [1, 6 / 5, 7 / 5, 8 / 5, 9 / 5, 2]) :=
  c8_breakset_invariants homeValueSpec
    [Val.num 1, Val.num 1, Val.num 1, Val.num 1, Val.num 2] (by decide) (by decide)
    [1, 6 / 5, 7 / 5, 8 / 5, 9 / 5, 2] (by decide)

theorem c4_witness :
    style_fn (stepColor [0, 1] ["#111111", "#222222"]) Val.null = "#cccccc" ∧
      "#cccccc" ∉ unemploymentRateSpec.palette := by
  refine ⟨(c4_missing_value_colors [0, 1] ["#111111", "#222222"]).1.1, ?_⟩
  exact (c4_missing_value_colors [0, 1] ["#111111", "#222222"]).2.2.2
    unemploymentRateSpec (by decide)

theorem c9_witness :
    (home_build_map_state defaultSpec [Val.num 1, Val.nan]).1 = [Val.num 1, Val.nan] :=
  (c9_caller_column_mutation defaultSpec [Val.num 1, Val.nan]).1

theorem c10_witness :
    "Austal USA" ∈ parse_shipyards_in_radius (CellVal.listv ["Austal USA", "Bollinger"]) :=
  (c10_parse_normalization.2.1 ["Austal USA", "Bollinger"] "Austal USA").mpr (by decide)
